import Mathlib

/-!
Shallow embedding of the npm-local-development synchronization engine
(src/index.ts and src/utils.ts) and proofs about the spec's claims.

Paths are modelled as lists of path components; filesystem directory
listings as lists of entries.  Machine state that the TypeScript code
holds in closure variables is passed explicitly.
-/

namespace NpmLocalDev

/-! ## Link-farm model (updateNodeModulesSymLinks, src/index.ts lines 94-134)

The source package's own node_modules directory is a list of entries.
`isDir` is the result of lstat(...).isDirectory() (false for files and for
symlinks), `hasPackageJson` records whether entry/package.json exists, and
`subs` are the entry's children (only relevant for scope directories). -/

structure SubEntry where
  name : String
  isDir : Bool
deriving DecidableEq, Repr

structure SourceEntry where
  name : String
  isDir : Bool
  hasPackageJson : Bool
  subs : List SubEntry
deriving DecidableEq, Repr

/-- An entry of the mirror's nested node_modules after a rebuild: either a
direct symlink to a source package, or a real scope directory holding
symlinks to its scoped sub-packages. -/
inductive MirrorEntry where
  | link (name : String)
  | scopeDir (name : String) (subs : List String)
deriving DecidableEq, Repr

def MirrorEntry.name : MirrorEntry → String
  | .link n => n
  | .scopeDir n _ => n

/-- Population pass of updateNodeModulesSymLinks: for each directory entry
of the source node_modules, create a direct symlink when the entry itself
has a package.json, otherwise create a real directory and symlink every
sub-directory inside it.  Non-directories are skipped. -/
def populateLinkFarm (src : List SourceEntry) : List MirrorEntry :=
  src.filterMap fun e =>
    if !e.isDir then none
    else if e.hasPackageJson then some (.link e.name)
    else some (.scopeDir e.name (((e.subs.filter (·.isDir))).map (·.name)))

/-- Effect of `fs.remove(join(clonedPackageNodeModules, dep))` on the
mirror listing.  A plain name removes the top-level entry of that name; a
scoped name `s/p` removes the sub-entry p inside the real scope directory
s (removal through a top-level symlink does not change the mirror listing
itself). -/
def removeDep (m : List MirrorEntry) (dep : String) : List MirrorEntry :=
  match dep.splitOn "/" with
  | [n] => m.filter (fun e => e.name ≠ n)
  | [s, p] =>
    m.map fun e =>
      match e with
      | .scopeDir n subs => if n = s then .scopeDir n (subs.filter (· ≠ p)) else e
      | .link n => .link n
  | _ => m

/-- Peer-removal pass of updateNodeModulesSymLinks (the final for-loop). -/
def removePeers (m : List MirrorEntry) (peers : List String) : List MirrorEntry :=
  peers.foldl removeDep m

/-- The whole rebuild: no-op when the task is closed, otherwise the old
mirror node_modules is removed, repopulated from the source, and the peer
names are removed afterwards. -/
def updateNodeModulesSymLinks (closed : Bool) (mirror : List MirrorEntry)
    (src : List SourceEntry) (peers : List String) : List MirrorEntry :=
  if closed then mirror
  else removePeers (populateLinkFarm src) peers

/-- Whether a (possibly scoped) package name resolves to an entry of the
mirror's nested node_modules: directly for a plain name, or via one level
of scope nesting for a name of the form s/p. -/
def resolvesName (m : List MirrorEntry) (name : String) : Bool :=
  match name.splitOn "/" with
  | [n] => m.any (fun e => e.name == n)
  | [s, p] =>
    m.any fun e =>
      match e with
      | .scopeDir n subs => n == s && subs.contains p
      | .link _ => false
  | _ => false

/-- Ordering between mirror entries: the left entry is the same as the
right one except that a scope directory may have lost some sub-entries. -/
def entryLe : MirrorEntry → MirrorEntry → Prop
  | .link n, .link n' => n = n'
  | .scopeDir n subs, .scopeDir n' subs' => n = n' ∧ subs ⊆ subs'
  | _, _ => False

theorem entryLe_refl (e : MirrorEntry) : entryLe e e := by
  cases e with
  | link n => exact rfl
  | scopeDir n subs => exact ⟨rfl, List.Subset.refl subs⟩

theorem entryLe_name {e e' : MirrorEntry} (h : entryLe e e') : e.name = e'.name := by
  cases e <;> cases e' <;> simp_all [entryLe, MirrorEntry.name]

theorem removeDep_le (m : List MirrorEntry) (q : String) :
    ∀ e ∈ removeDep m q, ∃ e' ∈ m, entryLe e e' := by
  intro e he
  unfold removeDep at he
  rcases hq : q.splitOn "/" with _ | ⟨n, _ | ⟨p, _ | rest⟩⟩ <;> rw [hq] at he
  · exact ⟨e, he, entryLe_refl e⟩
  · exact ⟨e, (List.mem_filter.mp he).1, entryLe_refl e⟩
  · rw [List.mem_map] at he
    obtain ⟨e', he', rfl⟩ := he
    refine ⟨e', he', ?_⟩
    cases e' with
    | link n' => exact rfl
    | scopeDir n' subs =>
      by_cases hn : n' = n
      · simp only [hn, if_pos rfl]
        exact ⟨rfl, fun x hx => List.mem_of_mem_filter hx⟩
      · simp only [if_neg hn]
        exact entryLe_refl _
  · exact ⟨e, he, entryLe_refl e⟩

theorem resolvesName_mono {m m' : List MirrorEntry}
    (h : ∀ e ∈ m', ∃ e'' ∈ m, entryLe e e'') (p : String)
    (hr : resolvesName m' p = true) : resolvesName m p = true := by
  unfold resolvesName at hr ⊢
  rcases hp : p.splitOn "/" with _ | ⟨n, _ | ⟨s, _ | rest⟩⟩ <;> rw [hp] at hr
  · exact absurd hr (by simp)
  · rw [List.any_eq_true] at hr ⊢
    obtain ⟨e, he, hname⟩ := hr
    obtain ⟨e'', he'', hle⟩ := h e he
    exact ⟨e'', he'', by rw [← entryLe_name hle]; exact hname⟩
  · rw [List.any_eq_true] at hr ⊢
    obtain ⟨e, he, hmatch⟩ := hr
    obtain ⟨e'', he'', hle⟩ := h e he
    cases e with
    | link _ => simp at hmatch
    | scopeDir n' subs =>
      cases e'' with
      | link _ => exact absurd hle (by simp [entryLe])
      | scopeDir n'' subs'' =>
        obtain ⟨rfl, hsub⟩ := hle
        refine ⟨.scopeDir n' subs'', he'', ?_⟩
        simp only [Bool.and_eq_true, beq_iff_eq] at hmatch ⊢
        refine ⟨hmatch.1, ?_⟩
        have hs : s ∈ subs := by simpa using hmatch.2
        simpa using hsub hs
  · exact absurd hr (by simp)

theorem resolvesName_removeDep_of_false {m : List MirrorEntry} {p : String}
    (h : resolvesName m p = false) (q : String) :
    resolvesName (removeDep m q) p = false := by
  by_contra hc
  rw [Bool.not_eq_false] at hc
  exact absurd (resolvesName_mono (removeDep_le m q) p hc) (by simp [h])

theorem resolvesName_removeDep_self (m : List MirrorEntry) (p : String) :
    resolvesName (removeDep m p) p = false := by
  unfold resolvesName removeDep
  rcases hp : p.splitOn "/" with _ | ⟨n, _ | ⟨s, _ | rest⟩⟩
  · rfl
  · rw [List.any_eq_false]
    intro e he
    rw [List.mem_filter, decide_eq_true_eq] at he
    simp only [beq_iff_eq]
    exact he.2
  · rw [List.any_eq_false]
    intro e he
    rw [List.mem_map] at he
    obtain ⟨e', _, rfl⟩ := he
    cases e' with
    | link _ => simp
    | scopeDir n' subs =>
      by_cases hn : n' = n
      · subst hn
        simp [List.mem_filter]
      · simp [hn]
  · rfl

theorem resolvesName_removePeers_of_false {m : List MirrorEntry} {p : String}
    (h : resolvesName m p = false) (qs : List String) :
    resolvesName (removePeers m qs) p = false := by
  induction qs generalizing m with
  | nil => exact h
  | cons q rest ih => exact ih (resolvesName_removeDep_of_false h q)

theorem resolvesName_removePeers_of_mem (peers : List String) :
    ∀ (m : List MirrorEntry) (p : String), p ∈ peers →
      resolvesName (removePeers m peers) p = false := by
  induction peers with
  | nil => intro m p hp; exact absurd hp (List.not_mem_nil p)
  | cons q rest ih =>
    intro m p hp
    rcases List.mem_cons.mp hp with rfl | hmem
    · exact resolvesName_removePeers_of_false (resolvesName_removeDep_self m p) rest
    · exact ih (removeDep m q) p hmem

/-- C1: after a completed run of the link-farm rebuild on an open task, no
entry of the mirror's nested node_modules — directly or via one level of
scope nesting — resolves a name of the peer set, and the rebuild is the
peer-removal pass applied after the population pass (not a skip filter
during population). -/
theorem c1_peer_exclusion (closed : Bool) (mirror : List MirrorEntry)
    (src : List SourceEntry) (peers : List String) (h : closed = false) :
    updateNodeModulesSymLinks closed mirror src peers
      = removePeers (populateLinkFarm src) peers ∧
    ∀ p ∈ peers,
      resolvesName (updateNodeModulesSymLinks closed mirror src peers) p = false := by
  subst h
  refine ⟨rfl, fun p hp => ?_⟩
  unfold updateNodeModulesSymLinks
  simp only [Bool.false_eq_true, if_false]
  exact resolvesName_removePeers_of_mem peers (populateLinkFarm src) p hp

theorem c1_peer_exclusion_witness :
    (false = false) ∧
    (updateNodeModulesSymLinks false []
        [⟨"rxjs", true, true, []⟩, ⟨"@scope", true, false, [⟨"util", true⟩]⟩, ⟨"left-pad", true, true, []⟩]
        ["rxjs", "@scope/util"]
      = removePeers (populateLinkFarm
          [⟨"rxjs", true, true, []⟩, ⟨"@scope", true, false, [⟨"util", true⟩]⟩, ⟨"left-pad", true, true, []⟩])
          ["rxjs", "@scope/util"] ∧
    ∀ p ∈ ["rxjs", "@scope/util"],
      resolvesName (updateNodeModulesSymLinks false []
        [⟨"rxjs", true, true, []⟩, ⟨"@scope", true, false, [⟨"util", true⟩]⟩, ⟨"left-pad", true, true, []⟩]
        ["rxjs", "@scope/util"]) p = false) :=
  ⟨rfl, c1_peer_exclusion false []
    [⟨"rxjs", true, true, []⟩, ⟨"@scope", true, false, [⟨"util", true⟩]⟩, ⟨"left-pad", true, true, []⟩]
    ["rxjs", "@scope/util"] rfl⟩

/-! ## Shutdown hook registry (onProcessExit, src/utils.ts lines 47-87) -/

structure Hook where
  id : Nat
  throws : Bool
deriving DecidableEq, Repr

/-- The SIGINT handler loop (src/utils.ts lines 62-65): awaits each
registered callback in list order.  There is no try/catch around the
await, so a rejected callback ends the loop and the error escapes before
the exit decision.  Returns the ids of the callbacks that ran and whether
an error escaped. -/
def runShutdownHooks : List Hook → List Nat × Bool
  | [] => ([], false)
  | h :: rest =>
    if h.throws then ([h.id], true)
    else
      let r := runShutdownHooks rest
      (h.id :: r.1, r.2)

/-- Callbacks reached before the loop stops: everything up to and
including the first throwing callback. -/
def hooksUntilThrow : List Hook → List Nat
  | [] => []
  | h :: rest => if h.throws then [h.id] else h.id :: hooksUntilThrow rest

/-- C2 counterexample: with two registered callbacks where the first one
throws, the second callback never executes — one task's failing teardown
does prevent the other task's shutdown hook from running. -/
theorem c2_counterexample :
    (runShutdownHooks [⟨0, true⟩, ⟨1, false⟩]).1 = [0] ∧
    1 ∉ (runShutdownHooks [⟨0, true⟩, ⟨1, false⟩]).1 := by
  exact ⟨rfl, by decide⟩

/-- C2 amended: the shutdown handler runs the registered callbacks in
list order only up to and including the first one that throws; the error
escapes (aborting all later callbacks and the exit decision), and an
error escapes exactly when some executed callback throws. -/
theorem c2_first_throw_aborts (hooks : List Hook) :
    (runShutdownHooks hooks).1 = hooksUntilThrow hooks ∧
    (runShutdownHooks hooks).2 = hooks.any (·.throws) := by
  induction hooks with
  | nil => exact ⟨rfl, rfl⟩
  | cons h rest ih =>
    by_cases ht : h.throws = true
    · simp [runShutdownHooks, hooksUntilThrow, ht]
    · simp only [Bool.not_eq_true] at ht
      simp [runShutdownHooks, hooksUntilThrow, ht, ih.1, ih.2]

/-- Registration (src/utils.ts line 51): unshift prepends the callback to
the process-wide listener list. -/
def register (listeners : List Hook) (c : Hook) : List Hook := c :: listeners

/-- Registering a sequence of callbacks in order. -/
def registerAll (cs : List Hook) (listeners : List Hook) : List Hook :=
  cs.foldl register listeners

theorem registerAll_eq (cs acc : List Hook) :
    registerAll cs acc = cs.reverse ++ acc := by
  induction cs generalizing acc with
  | nil => rfl
  | cons c rest ih =>
    show registerAll rest (c :: acc) = (c :: rest).reverse ++ acc
    rw [ih (c :: acc)]
    simp

theorem runShutdownHooks_ids (l : List Hook) (h : ∀ x ∈ l, x.throws = false) :
    (runShutdownHooks l).1 = l.map (·.id) := by
  induction l with
  | nil => rfl
  | cons x rest ih =>
    have hx : x.throws = false := h x (List.mem_cons_self x rest)
    simp [runShutdownHooks, hx, ih (fun y hy => h y (List.mem_cons_of_mem x hy))]

/-- C9: callbacks registered via onProcessExit execute in reverse
registration order — registration prepends, the handler iterates the list
front to back, so the most recently registered callback runs first. -/
theorem c9_reverse_order (cs : List Hook) (h : ∀ x ∈ cs, x.throws = false) :
    (runShutdownHooks (registerAll cs [])).1 = (cs.map (·.id)).reverse := by
  rw [registerAll_eq, List.append_nil]
  rw [runShutdownHooks_ids cs.reverse (fun x hx => h x (List.mem_reverse.mp hx))]
  exact List.map_reverse _ _

theorem c9_reverse_order_witness :
    (∀ x ∈ [(⟨1, false⟩ : Hook), ⟨2, false⟩], x.throws = false) ∧
    (runShutdownHooks (registerAll [(⟨1, false⟩ : Hook), ⟨2, false⟩] [])).1
      = ([(⟨1, false⟩ : Hook), ⟨2, false⟩].map (·.id)).reverse :=
  ⟨by decide, c9_reverse_order [⟨1, false⟩, ⟨2, false⟩] (by decide)⟩

/-- JS Array.prototype.indexOf: index of the first occurrence, -1 when
the element is absent. -/
def jsIndexOf (l : List Hook) (c : Hook) : Int :=
  match l.findIdx? (· = c) with
  | some i => (i : Int)
  | none => -1

/-- Actual splice start index per the ECMAScript specification: a
negative start counts from the end of the array clamped at 0, a
non-negative start is clamped at the length. -/
def jsSpliceStart (len : Nat) (start : Int) : Nat :=
  (if start < 0 then max ((len : Int) + start) 0 else min start (len : Int)).toNat

/-- JS Array.prototype.splice(start, 1): removes at most one element at
the actual start index. -/
def jsSpliceRemoveOne (l : List Hook) (start : Int) : List Hook :=
  l.take (jsSpliceStart l.length start) ++ l.drop (jsSpliceStart l.length start + 1)

/-- Unsubscribe closure returned by onProcessExit (src/utils.ts lines
83-86): splice(indexOf(callback), 1) on the current listener list. -/
def unsubscribe (l : List Hook) (c : Hook) : List Hook :=
  jsSpliceRemoveOne l (jsIndexOf l c)

theorem findIdx?_eq_none_of_not_mem (l : List Hook) (c : Hook) (h : c ∉ l) :
    l.findIdx? (· = c) = none := by
  rw [List.findIdx?_eq_none_iff]
  intro x hx
  simp only [decide_eq_false_iff_not]
  exact fun hxc => h (hxc ▸ hx)

theorem jsSpliceStart_neg_one (len : Nat) : jsSpliceStart len (-1) = len - 1 := by
  unfold jsSpliceStart
  rw [if_pos (by omega : (-1 : Int) < 0)]
  rcases len with _ | n
  · rfl
  · have hcast : ((n + 1 : Nat) : Int) + -1 = (n : Int) := by push_cast; ring
    rw [hcast, max_eq_left (by positivity : (0 : Int) ≤ (n : Int))]
    simp

/-- C10: when the callback is no longer registered (the list does not
contain it), the unsubscribe closure removes the LAST element of the
listener list — the earliest-registered remaining listener — instead of
being a no-op, because splice is applied at index -1. -/
theorem c10_stale_unsubscribe (l : List Hook) (c : Hook) (h : c ∉ l) :
    unsubscribe l c = l.dropLast ∧ (l ≠ [] → unsubscribe l c ≠ l) := by
  have hidx : jsIndexOf l c = -1 := by
    unfold jsIndexOf
    rw [findIdx?_eq_none_of_not_mem l c h]
  have hmain : unsubscribe l c = l.dropLast := by
    unfold unsubscribe jsSpliceRemoveOne
    rw [hidx, jsSpliceStart_neg_one]
    rw [List.drop_eq_nil_of_le (by omega), List.append_nil]
    exact (List.dropLast_eq_take l).symm
  refine ⟨hmain, fun hne hcontra => ?_⟩
  rw [hmain] at hcontra
  have := congrArg List.length hcontra
  rw [List.length_dropLast] at this
  have hpos : 0 < l.length := List.length_pos.mpr hne
  omega

theorem c10_stale_unsubscribe_witness :
    ((⟨3, false⟩ : Hook) ∉ [(⟨1, false⟩ : Hook), ⟨2, false⟩]) ∧
    (unsubscribe [(⟨1, false⟩ : Hook), ⟨2, false⟩] ⟨3, false⟩
        = [(⟨1, false⟩ : Hook), ⟨2, false⟩].dropLast ∧
      ([(⟨1, false⟩ : Hook), ⟨2, false⟩] ≠ [] →
        unsubscribe [(⟨1, false⟩ : Hook), ⟨2, false⟩] ⟨3, false⟩
          ≠ [(⟨1, false⟩ : Hook), ⟨2, false⟩])) :=
  ⟨by decide, c10_stale_unsubscribe [⟨1, false⟩, ⟨2, false⟩] ⟨3, false⟩ (by decide)⟩

/-! ## Manifest reader (readDeps, src/index.ts lines 62-70) -/

/-- Parsed JSON content of the source package's manifest: `isNull` models
a file whose JSON content is falsy (so the || fallback of the code
applies), and `peerDependencies` lists the keys of the peerDependencies
object (empty when the key is missing). -/
structure ModulePackage where
  isNull : Bool
  peerDependencies : List String
deriving DecidableEq, Repr

/-- Closure state mutated by readDeps: the ignored glob list and the
peerDepsArray.  Both are pushed to and never cleared. -/
structure DepsState where
  ignored : List String
  peerDepsArray : List String
deriving DecidableEq, Repr

/-- Watch-ignore glob pushed for one peer dependency name
(join(packageSource, node_modules, i) plus the recursive wildcard). -/
def peerGlob (packageSource p : String) : String :=
  packageSource ++ "/node_modules/" ++ p ++ "/**/*"

/-- Peer names the code iterates over after the falsy guard. -/
def peersOf (pkg : ModulePackage) : List String :=
  if pkg.isNull then [] else pkg.peerDependencies

/-- The readDeps body: fs.readJSONSync throws when the manifest file is
absent (modelled by `none`); otherwise the falsy guard applies and the
for-in loop pushes one glob and one peer name per key. -/
def readDeps (packageSource : String) (file : Option ModulePackage) (st : DepsState) :
    Except Unit DepsState :=
  match file with
  | none => .error ()
  | some pkg =>
    .ok ((peersOf pkg).foldl
      (fun s i =>
        { ignored := s.ignored ++ [peerGlob packageSource i],
          peerDepsArray := s.peerDepsArray ++ [i] }) st)

/-- Closed form of the state after one successful readDeps call. -/
def readDepsState (packageSource : String) (pkg : ModulePackage) (st : DepsState) : DepsState :=
  { ignored := st.ignored ++ (peersOf pkg).map (peerGlob packageSource),
    peerDepsArray := st.peerDepsArray ++ peersOf pkg }

theorem readDeps_push_eq (src : String) (l : List String) (st : DepsState) :
    l.foldl (fun s i =>
        { ignored := s.ignored ++ [peerGlob src i],
          peerDepsArray := s.peerDepsArray ++ [i] }) st
      = { ignored := st.ignored ++ l.map (peerGlob src),
          peerDepsArray := st.peerDepsArray ++ l } := by
  induction l generalizing st with
  | nil => simp
  | cons x rest ih =>
    rw [List.foldl_cons, ih]
    simp

theorem readDeps_some_eq (src : String) (pkg : ModulePackage) (st : DepsState) :
    readDeps src (some pkg) st = Except.ok (readDepsState src pkg st) := by
  simp only [readDeps, readDeps_push_eq, readDepsState]

/-- C3 counterexample: with an absent manifest file the reader raises an
error (readJSONSync throws ENOENT) instead of computing an empty peer
set. -/
theorem c3_counterexample :
    readDeps "/src/core" none ⟨[], []⟩ = Except.error () := rfl

/-- C3 amended: when the manifest file is absent, readDeps throws and the
error propagates out of the reader; only when the file is present (even
with falsy JSON content or no peerDependencies key) does the call succeed,
appending the peer names and globs to the state. -/
theorem c3_absent_manifest_throws (src : String) (st : DepsState) :
    readDeps src none st = Except.error () ∧
    (∀ pkg : ModulePackage, readDeps src (some pkg) st
        = Except.ok (readDepsState src pkg st)) ∧
    readDeps src (some ⟨true, []⟩) st = Except.ok st := by
  refine ⟨rfl, fun pkg => readDeps_some_eq src pkg st, ?_⟩
  rw [readDeps_some_eq]
  simp [readDepsState, peersOf]

/-- C7 counterexample: with one peer dependency, calling readDeps twice
in a row duplicates the glob and the peer name — the excluded-glob list
and peerDepsArray after the second call differ from the state after the
first call. -/
theorem c7_counterexample :
    readDeps "/src/core" (some ⟨false, ["rxjs"]⟩) ⟨[], []⟩
      = Except.ok ⟨["/src/core/node_modules/rxjs/**/*"], ["rxjs"]⟩ ∧
    readDeps "/src/core" (some ⟨false, ["rxjs"]⟩)
        ⟨["/src/core/node_modules/rxjs/**/*"], ["rxjs"]⟩
      = Except.ok ⟨["/src/core/node_modules/rxjs/**/*", "/src/core/node_modules/rxjs/**/*"],
          ["rxjs", "rxjs"]⟩ ∧
    (⟨["/src/core/node_modules/rxjs/**/*", "/src/core/node_modules/rxjs/**/*"],
        ["rxjs", "rxjs"]⟩ : DepsState)
      ≠ ⟨["/src/core/node_modules/rxjs/**/*"], ["rxjs"]⟩ := by
  refine ⟨rfl, rfl, ?_⟩
  decide

/-- C7 amended: readDeps is idempotent only up to duplication — the
second call appends a duplicate copy of the peer names and globs, so the
lists grow, but the SET of peer names and the SET of excluded globs are
unchanged by the second call. -/
theorem c7_idempotent_up_to_dup (src : String) (pkg : ModulePackage) (st : DepsState) :
    readDeps src (some pkg) (readDepsState src pkg st)
      = Except.ok (readDepsState src pkg (readDepsState src pkg st)) ∧
    (readDepsState src pkg (readDepsState src pkg st)).peerDepsArray.toFinset
      = (readDepsState src pkg st).peerDepsArray.toFinset ∧
    (readDepsState src pkg (readDepsState src pkg st)).ignored.toFinset
      = (readDepsState src pkg st).ignored.toFinset := by
  refine ⟨readDeps_some_eq src pkg _, ?_, ?_⟩ <;>
    simp [readDepsState, List.toFinset_append, Finset.union_assoc]

/-! ## Initial link-mode mirror build (sync, src/index.ts lines 139-149) -/

structure RootEntry where
  name : String
  linkFails : Bool
deriving DecidableEq, Repr

/-- Result of the root-entry link loop: entry names for which symlinkSync
was invoked, names successfully linked, and whether the surrounding catch
caught (and logged) an error. -/
structure LinkLoopResult where
  attempted : List String
  linked : List String
  errorLogged : Bool
deriving DecidableEq, Repr

/-- Try-block of the initial mirror build: iterate the top-level entries
of packageSource, skip node_modules, symlink each entry.  The try/catch
wraps the WHOLE loop, so the first throwing symlinkSync leaves the loop
and control transfers to the catch, which logs and lets sync continue. -/
def linkRootFiles : List RootEntry → LinkLoopResult
  | [] => ⟨[], [], false⟩
  | e :: rest =>
    if e.name = "node_modules" then linkRootFiles rest
    else if e.linkFails then ⟨[e.name], [], true⟩
    else
      let r := linkRootFiles rest
      ⟨e.name :: r.attempted, e.name :: r.linked, r.errorLogged⟩

/-- C5 counterexample: when linking the first entry fails, the second
entry is never attempted — the failure aborts the rest of the loop. -/
theorem c5_counterexample :
    (linkRootFiles [⟨"index.js", true⟩, ⟨"README.md", false⟩]).attempted
      = ["index.js"] ∧
    "README.md" ∉ (linkRootFiles [⟨"index.js", true⟩, ⟨"README.md", false⟩]).attempted := by
  exact ⟨rfl, by decide⟩

/-- C5 amended: a link failure is caught and logged outside the loop and
does not abort the sync task, but it does abort the remaining entries:
the loop links exactly the non-node_modules entries before the first
failing one, attempts the failing entry, and never reaches the entries
after it. -/
theorem c5_failure_aborts_loop (pre post : List RootEntry) (e : RootEntry)
    (hpre : ∀ x ∈ pre, x.linkFails = false) (he : e.linkFails = true)
    (hn : e.name ≠ "node_modules") :
    (linkRootFiles (pre ++ e :: post)).errorLogged = true ∧
    (linkRootFiles (pre ++ e :: post)).attempted
      = (pre.filter (fun x => x.name ≠ "node_modules")).map (·.name) ++ [e.name] ∧
    (linkRootFiles (pre ++ e :: post)).linked
      = (pre.filter (fun x => x.name ≠ "node_modules")).map (·.name) := by
  induction pre with
  | nil =>
    simp only [List.nil_append, List.filter_nil, List.map_nil, List.nil_append]
    unfold linkRootFiles
    rw [if_neg hn, if_pos he]
    exact ⟨rfl, rfl, rfl⟩
  | cons x rest ih =>
    have hx : x.linkFails = false := hpre x (List.mem_cons_self x rest)
    have ihx := ih (fun y hy => hpre y (List.mem_cons_of_mem x hy))
    by_cases hxn : x.name = "node_modules"
    · simp only [List.cons_append]
      unfold linkRootFiles
      rw [if_pos hxn]
      rw [List.filter_cons_of_neg (by simp [hxn])]
      exact ihx
    · simp only [List.cons_append]
      unfold linkRootFiles
      rw [if_neg hxn, if_neg (by simp [hx])]
      rw [List.filter_cons_of_pos (by simp [hxn])]
      simp only [List.map_cons, List.cons_append]
      exact ⟨ihx.1, by rw [ihx.2.1], by rw [ihx.2.2]⟩

theorem c5_failure_aborts_loop_witness :
    (∀ x ∈ [(⟨"a.js", false⟩ : RootEntry)], x.linkFails = false) ∧
    (⟨"b.js", true⟩ : RootEntry).linkFails = true ∧
    (⟨"b.js", true⟩ : RootEntry).name ≠ "node_modules" ∧
    ((linkRootFiles ([(⟨"a.js", false⟩ : RootEntry)] ++ ⟨"b.js", true⟩ :: [⟨"c.js", false⟩])).errorLogged = true ∧
    (linkRootFiles ([(⟨"a.js", false⟩ : RootEntry)] ++ ⟨"b.js", true⟩ :: [⟨"c.js", false⟩])).attempted
      = ([(⟨"a.js", false⟩ : RootEntry)].filter (fun x => x.name ≠ "node_modules")).map (·.name) ++ ["b.js"] ∧
    (linkRootFiles ([(⟨"a.js", false⟩ : RootEntry)] ++ ⟨"b.js", true⟩ :: [⟨"c.js", false⟩])).linked
      = ([(⟨"a.js", false⟩ : RootEntry)].filter (fun x => x.name ≠ "node_modules")).map (·.name)) :=
  ⟨by decide, rfl, by decide,
    c5_failure_aborts_loop [⟨"a.js", false⟩] [⟨"c.js", false⟩] ⟨"b.js", true⟩
      (by decide) rfl (by decide)⟩

/-! ## Change reactor configuration and root-watch handler
(sync, src/index.ts lines 153-202).  Filesystem paths are lists of path
components here. -/

/-- Ignored patterns passed to the manifest watch subscription
(src/index.ts line 162). -/
def manifestWatchIgnored : List String := [".git"]

/-- Ignored patterns passed to the root watch subscription (src/index.ts
lines 175-178): the options carry no ignored patterns at all. -/
def rootWatchIgnored : List String := []

/-- The excludedPathGlobs list accumulated by readDeps for a peer set. -/
def excludedPathGlobs (packageSource : String) (peers : List String) : List String :=
  peers.map (peerGlob packageSource)

inductive WatchEvent where
  | add
  | addDir
  | change
  | unlink
  | unlinkDir
deriving DecidableEq, Repr

inductive MirrorAction where
  | removePath (target : List String)
  | linkPath (target : List String)
deriving DecidableEq, Repr

/-- Whether the first path is a component-wise ancestor-or-self of the
second (the startsWith test of the handler on resolved paths). -/
def isUnder : List String → List String → Bool
  | [], _ => true
  | _ :: _, [] => false
  | a :: as, b :: bs => a == b && isUnder as bs

theorem isUnder_append (pre rest : List String) : isUnder pre (pre ++ rest) = true := by
  induction pre with
  | nil => rfl
  | cons a as ih => simp [isUnder, ih]

/-- Root-watch event handler (src/index.ts lines 179-201): any event
whose path lies under packageSource/node_modules returns early; unlink
events remove the mirror target, add events create the link there, and
change events fall through both branches. -/
def rootWatchHandler (packageSource path : List String) (ev : WatchEvent)
    (mirrorPath : List String) : Option MirrorAction :=
  if isUnder (packageSource ++ ["node_modules"]) path then none
  else
    let target := mirrorPath ++ path.drop packageSource.length
    match ev with
    | .unlink | .unlinkDir => some (.removePath target)
    | .add | .addDir => some (.linkPath target)
    | .change => none

/-- C6 counterexample: for the peer name rxjs, the excluded glob computed
by readDeps is in neither watch subscription's ignored configuration —
the recomputed excludedPathGlobs list is never wired into the watchers. -/
theorem c6_counterexample :
    excludedPathGlobs "/src/core" ["rxjs"] = ["/src/core/node_modules/rxjs/**/*"] ∧
    "/src/core/node_modules/rxjs/**/*" ∉ manifestWatchIgnored ∧
    "/src/core/node_modules/rxjs/**/*" ∉ rootWatchIgnored := by
  refine ⟨rfl, by decide, by decide⟩

/-- C6 amended: change events whose path lies under
sourcePath/node_modules (peer subtrees included) cause no mirror
mutation, but not because of the glob list: the root watch subscription
is configured with no ignored patterns, and the events are dropped by the
handler's early return on the node_modules path test. -/
theorem c6_peer_events_no_mutation (src mirrorPath rest : List String)
    (p : String) (ev : WatchEvent) :
    rootWatchHandler src (src ++ ["node_modules", p] ++ rest) ev mirrorPath = none ∧
    rootWatchIgnored = [] := by
  refine ⟨?_, rfl⟩
  unfold rootWatchHandler
  rw [if_pos ?hu]
  case hu =>
    have h : src ++ ["node_modules", p] ++ rest
        = (src ++ ["node_modules"]) ++ (p :: rest) := by simp
    rw [h]
    exact isUnder_append _ _

/-! ## Teardown ordering (shutdown hook, src/index.ts lines 77-88) -/

inductive HookAction where
  | setClosed
  | closeWatcher (k : Nat)
  | logMsg
  | removeMirror
deriving DecidableEq, Repr

/-- Action sequence of the shutdown hook registered while watching: set
closed to true, close each watcher in order, log, then remove the cloned
package path. -/
def shutdownHook (numWatchers : Nat) : List HookAction :=
  .setClosed :: ((List.range numWatchers).map .closeWatcher ++ [.logMsg, .removeMirror])

/-- C8: in the shutdown hook the closed flag is set first (index 0),
watcher k is closed at index k+1, and the mirror removal is the final
action at index n+2 — after the flag and after every close; and a rebuild
that observes closed=true leaves the mirror untouched (no write). -/
theorem c8_teardown_order (n k : Nat) (hk : k < n)
    (mirror : List MirrorEntry) (src : List SourceEntry) (peers : List String) :
    (shutdownHook n).get? 0 = some .setClosed ∧
    (shutdownHook n).get? (k + 1) = some (.closeWatcher k) ∧
    (shutdownHook n).get? (n + 2) = some .removeMirror ∧
    (shutdownHook n).length = n + 3 ∧
    (0 < k + 1 ∧ k + 1 < n + 2) ∧
    updateNodeModulesSymLinks true mirror src peers = mirror := by
  refine ⟨rfl, ?_, ?_, ?_, ⟨by omega, by omega⟩, rfl⟩
  · show ((List.range n).map HookAction.closeWatcher ++ [HookAction.logMsg, HookAction.removeMirror]).get? k
        = some (.closeWatcher k)
    rw [List.get?_append (by simpa using hk)]
    rw [List.get?_map, List.get?_range hk]
    rfl
  · show ((List.range n).map HookAction.closeWatcher ++ [HookAction.logMsg, HookAction.removeMirror]).get? (n + 1)
        = some .removeMirror
    rw [List.get?_append_right (by simp)]
    simp
  · simp [shutdownHook]

theorem c8_teardown_order_witness :
    0 < 2 ∧
    ((shutdownHook 2).get? 0 = some .setClosed ∧
    (shutdownHook 2).get? (0 + 1) = some (.closeWatcher 0) ∧
    (shutdownHook 2).get? (2 + 2) = some .removeMirror ∧
    (shutdownHook 2).length = 2 + 3 ∧
    (0 < 0 + 1 ∧ 0 + 1 < 2 + 2) ∧
    updateNodeModulesSymLinks true [.link "rxjs"] [] [] = [.link "rxjs"]) :=
  ⟨by decide, c8_teardown_order 2 0 (by decide) [.link "rxjs"] [] []⟩

/-! ## ThrottleTime (src/utils.ts lines 6-33)

Discrete event model.  The closure state (last, dirty, lastArgs) and the
number of pending setTimeout callbacks are explicit; times are integer
milliseconds as produced by Date.now().  The execution flag of the code
is set and cleared inside one synchronous tick and the wrapped call never
re-enters the throttled function, so the flag has no observable effect
and is not represented.  With integer times and cps at least 1, the JS
float comparison now - last > 1000 / cps agrees with the Nat comparison
against 1000 / cps rounded down. -/

def interval (cps : Nat) : Nat := 1000 / cps

structure ThrState where
  last : Nat
  dirty : Bool
  lastArgs : List Nat
  pendingTicks : Nat
deriving DecidableEq, Repr

/-- Closure state right after ThrottleTime(call, cps) is created at time
t0: last = Date.now(), dirty = false, lastArgs = [], nothing scheduled. -/
def initThrState (t0 : Nat) : ThrState := ⟨t0, false, [], 0⟩

inductive ThrEvent where
  | trigger (args : List Nat)
  | timeoutFire
deriving DecidableEq, Repr

structure Sched where
  time : Nat
  ev : ThrEvent
deriving DecidableEq, Repr

structure Execution where
  idx : Nat
  time : Nat
  args : List Nat
deriving DecidableEq, Repr

/-- One synchronous run of tick(): execute the wrapped call when more
than the interval has elapsed since last (clearing dirty and resetting
last, after which the dirty test schedules nothing), otherwise schedule
another timeout exactly when dirty is still set. -/
def tickOnce (cps now : Nat) (s : ThrState) : ThrState × Option (List Nat) :=
  if now - s.last > interval cps then
    ({ s with dirty := false, last := now }, some s.lastArgs)
  else if s.dirty then
    ({ s with pendingTicks := s.pendingTicks + 1 }, none)
  else (s, none)

/-- Processing one event: a trigger sets dirty, stores its args and runs
tick synchronously; a timeout firing consumes one pending tick and runs
tick. -/
def throttleStep (cps : Nat) (s : ThrState) (e : Sched) : ThrState × Option (List Nat) :=
  match e.ev with
  | .trigger args => tickOnce cps e.time { s with dirty := true, lastArgs := args }
  | .timeoutFire =>
    if s.pendingTicks = 0 then (s, none)
    else tickOnce cps e.time { s with pendingTicks := s.pendingTicks - 1 }

/-- Args carried by an execution produced at event e: a trigger executes
with its own freshly stored args, a timeout with the stored lastArgs. -/
def eventArgs (s : ThrState) (e : Sched) : List Nat :=
  match e.ev with
  | .trigger a => a
  | .timeoutFire => s.lastArgs

/-- Run the machine over a schedule, recording every execution of the
wrapped call together with the index of the event that produced it. -/
def throttleRun (cps : Nat) (s : ThrState) (i : Nat) :
    List Sched → ThrState × List Execution
  | [] => (s, [])
  | e :: rest =>
    let r := throttleStep cps s e
    let rr := throttleRun cps r.1 (i + 1) rest
    match r.2 with
    | some args => (rr.1, ⟨i, e.time, args⟩ :: rr.2)
    | none => rr

theorem throttleRun_cons (cps : Nat) (s : ThrState) (i : Nat) (e : Sched)
    (rest : List Sched) :
    throttleRun cps s i (e :: rest)
      = match (throttleStep cps s e).2 with
        | some args =>
          ((throttleRun cps (throttleStep cps s e).1 (i + 1) rest).1,
            ⟨i, e.time, args⟩ :: (throttleRun cps (throttleStep cps s e).1 (i + 1) rest).2)
        | none => throttleRun cps (throttleStep cps s e).1 (i + 1) rest := rfl

theorem throttleStep_some (cps : Nat) (s : ThrState) (e : Sched) (args : List Nat)
    (h : (throttleStep cps s e).2 = some args) :
    (throttleStep cps s e).1.last = e.time ∧
    s.last + interval cps < e.time ∧
    args = eventArgs s e ∧
    (throttleStep cps s e).1.lastArgs = eventArgs s e := by
  rcases e with ⟨t, ev⟩
  cases ev with
  | trigger a =>
    unfold throttleStep tickOnce at h ⊢
    unfold eventArgs
    dsimp only at h ⊢
    by_cases hg : t - s.last > interval cps
    · rw [if_pos hg] at h ⊢
      refine ⟨rfl, by omega, ?_, rfl⟩
      simpa using h.symm
    · rw [if_neg hg] at h
      simp at h
  | timeoutFire =>
    unfold throttleStep tickOnce at h ⊢
    unfold eventArgs
    dsimp only at h ⊢
    by_cases hp : s.pendingTicks = 0
    · rw [if_pos hp] at h
      simp at h
    · rw [if_neg hp] at h ⊢
      by_cases hg : t - s.last > interval cps
      · rw [if_pos hg] at h ⊢
        refine ⟨rfl, by omega, ?_, rfl⟩
        simpa using h.symm
      · rw [if_neg hg] at h
        by_cases hd : s.dirty = true
        · rw [if_pos hd] at h; simp at h
        · rw [if_neg hd] at h; simp at h

theorem throttleStep_none (cps : Nat) (s : ThrState) (e : Sched)
    (h : (throttleStep cps s e).2 = none) :
    (throttleStep cps s e).1.last = s.last ∧
    (throttleStep cps s e).1.lastArgs = eventArgs s e := by
  rcases e with ⟨t, ev⟩
  cases ev with
  | trigger a =>
    unfold throttleStep tickOnce at h ⊢
    unfold eventArgs
    dsimp only at h ⊢
    by_cases hg : t - s.last > interval cps
    · rw [if_pos hg] at h; simp at h
    · rw [if_neg hg] at h ⊢
      exact ⟨rfl, rfl⟩
  | timeoutFire =>
    unfold throttleStep tickOnce at h ⊢
    unfold eventArgs
    dsimp only at h ⊢
    by_cases hp : s.pendingTicks = 0
    · rw [if_pos hp]
      exact ⟨rfl, rfl⟩
    · rw [if_neg hp] at h ⊢
      by_cases hg : t - s.last > interval cps
      · rw [if_pos hg] at h; simp at h
      · rw [if_neg hg] at h ⊢
        by_cases hd : s.dirty = true
        · rw [if_pos hd]; exact ⟨rfl, rfl⟩
        · rw [if_neg hd]; exact ⟨rfl, rfl⟩

theorem throttleStep_trigger_none (cps : Nat) (s : ThrState) (t : Nat) (a : List Nat)
    (h : (throttleStep cps s ⟨t, .trigger a⟩).2 = none) :
    (throttleStep cps s ⟨t, .trigger a⟩).1.dirty = true ∧
    1 ≤ (throttleStep cps s ⟨t, .trigger a⟩).1.pendingTicks := by
  unfold throttleStep tickOnce at h ⊢
  dsimp only at h ⊢
  by_cases hg : t - s.last > interval cps
  · rw [if_pos hg] at h; simp at h
  · rw [if_neg hg] at h ⊢
    exact ⟨rfl, by simp⟩

theorem throttleStep_timeout_none (cps : Nat) (s : ThrState) (t : Nat)
    (h : (throttleStep cps s ⟨t, .timeoutFire⟩).2 = none)
    (hd : s.dirty = true) (hp : 1 ≤ s.pendingTicks) :
    (throttleStep cps s ⟨t, .timeoutFire⟩).1.dirty = true ∧
    1 ≤ (throttleStep cps s ⟨t, .timeoutFire⟩).1.pendingTicks := by
  unfold throttleStep tickOnce at h ⊢
  dsimp only at h ⊢
  rw [if_neg (by omega)] at h ⊢
  by_cases hg : t - s.last > interval cps
  · rw [if_pos hg] at h; simp at h
  · rw [if_neg hg] at h ⊢
    rw [if_pos (by simpa using hd)]
    exact ⟨hd, by simp⟩

theorem throttleRun_chain (cps : Nat) :
    ∀ (sched : List Sched) (s : ThrState) (i : Nat),
      List.Pairwise (fun a b => a.time ≤ b.time) sched →
      (∀ e ∈ sched, s.last ≤ e.time) →
      List.Chain (fun a b => a + interval cps < b) s.last
        ((throttleRun cps s i sched).2.map (·.time)) := by
  intro sched
  induction sched with
  | nil => intro s i _ _; exact List.Chain.nil
  | cons e rest ih =>
    intro s i hsort hge
    rw [List.pairwise_cons] at hsort
    rw [throttleRun_cons]
    rcases hstep : (throttleStep cps s e).2 with _ | args
    · have hlast := (throttleStep_none cps s e hstep).1
      have := ih (throttleStep cps s e).1 (i + 1) hsort.2
        (fun e' he' => by rw [hlast]; exact hge e' (List.mem_cons_of_mem e he'))
      rw [hlast] at this
      exact this
    · obtain ⟨hlast, hgap, -, -⟩ := throttleStep_some cps s e args hstep
      dsimp only
      rw [List.map_cons]
      refine List.Chain.cons hgap ?_
      have := ih (throttleStep cps s e).1 (i + 1) hsort.2
        (fun e' he' => by rw [hlast]; exact hsort.1 e' he')
      rw [hlast] at this
      exact this

theorem throttleRun_idx_ge (cps : Nat) :
    ∀ (sched : List Sched) (s : ThrState) (i : Nat),
      ∀ x ∈ (throttleRun cps s i sched).2, i ≤ x.idx := by
  intro sched
  induction sched with
  | nil => intro s i x hx; simp [throttleRun] at hx
  | cons e rest ih =>
    intro s i x hx
    rw [throttleRun_cons] at hx
    rcases hstep : (throttleStep cps s e).2 with _ | args <;> rw [hstep] at hx
    · exact le_trans (by omega) (ih _ (i + 1) x hx)
    · dsimp only at hx
      rcases List.mem_cons.mp hx with rfl | hmem
      · exact le_refl i
      · exact le_trans (by omega) (ih _ (i + 1) x hmem)

theorem throttleRun_idx_lt (cps : Nat) :
    ∀ (sched : List Sched) (s : ThrState) (i : Nat),
      ∀ x ∈ (throttleRun cps s i sched).2, x.idx < i + sched.length := by
  intro sched
  induction sched with
  | nil => intro s i x hx; simp [throttleRun] at hx
  | cons e rest ih =>
    intro s i x hx
    rw [throttleRun_cons] at hx
    rcases hstep : (throttleStep cps s e).2 with _ | args <;> rw [hstep] at hx
    · have := ih _ (i + 1) x hx
      simpa [Nat.add_comm, Nat.add_assoc, Nat.add_left_comm] using this
    · dsimp only at hx
      rcases List.mem_cons.mp hx with rfl | hmem
      · simp
      · have := ih _ (i + 1) x hmem
        simpa [Nat.add_comm, Nat.add_assoc, Nat.add_left_comm] using this

theorem throttleRun_timeouts_args (cps : Nat) :
    ∀ (post : List Sched) (s : ThrState) (i : Nat),
      (∀ e ∈ post, e.ev = .timeoutFire) →
      ∀ x ∈ (throttleRun cps s i post).2, x.args = s.lastArgs := by
  intro post
  induction post with
  | nil => intro s i _ x hx; simp [throttleRun] at hx
  | cons e rest ih =>
    intro s i hpost x hx
    have he : e.ev = ThrEvent.timeoutFire := hpost e (List.mem_cons_self e rest)
    have hargsS : eventArgs s e = s.lastArgs := by
      unfold eventArgs; rw [he]
    rw [throttleRun_cons] at hx
    rcases hstep : (throttleStep cps s e).2 with _ | args <;> rw [hstep] at hx
    · have hla := (throttleStep_none cps s e hstep).2
      have := ih (throttleStep cps s e).1 (i + 1)
        (fun y hy => hpost y (List.mem_cons_of_mem e hy)) x hx
      rw [this, hla, hargsS]
    · dsimp only at hx
      rcases List.mem_cons.mp hx with rfl | hmem
      · have := (throttleStep_some cps s e args hstep).2.2.1
        rw [this, hargsS]
      · have hla := (throttleStep_some cps s e args hstep).2.2.2
        have := ih (throttleStep cps s e).1 (i + 1)
          (fun y hy => hpost y (List.mem_cons_of_mem e hy)) x hmem
        rw [this, hla, hargsS]

theorem throttleRun_timeouts_live (cps : Nat) :
    ∀ (post : List Sched) (s : ThrState) (i : Nat),
      (∀ e ∈ post, e.ev = .timeoutFire) →
      s.dirty = true → 1 ≤ s.pendingTicks →
      (throttleRun cps s i post).1.pendingTicks = 0 →
      (throttleRun cps s i post).2 ≠ [] := by
  intro post
  induction post with
  | nil =>
    intro s i _ hd hp hq
    simp only [throttleRun] at hq
    omega
  | cons e rest ih =>
    intro s i hpost hd hp hq
    have he : e.ev = ThrEvent.timeoutFire := hpost e (List.mem_cons_self e rest)
    rw [throttleRun_cons] at hq ⊢
    rcases hstep : (throttleStep cps s e).2 with _ | args
    · rw [hstep] at hq
      dsimp only at hq ⊢
      rcases e with ⟨t, ev⟩
      cases he
      have hinv := throttleStep_timeout_none cps s t hstep hd hp
      exact ih (throttleStep cps s ⟨t, .timeoutFire⟩).1 (i + 1)
        (fun y hy => hpost y (List.mem_cons_of_mem _ hy)) hinv.1 hinv.2 hq
    · dsimp only
      simp

theorem throttleRun_append (cps : Nat) :
    ∀ (l1 l2 : List Sched) (s : ThrState) (i : Nat),
      throttleRun cps s i (l1 ++ l2)
        = ((throttleRun cps (throttleRun cps s i l1).1 (i + l1.length) l2).1,
           (throttleRun cps s i l1).2
             ++ (throttleRun cps (throttleRun cps s i l1).1 (i + l1.length) l2).2) := by
  intro l1
  induction l1 with
  | nil =>
    intro l2 s i
    simp [throttleRun]
  | cons e rest ih =>
    intro l2 s i
    rw [List.cons_append, throttleRun_cons, throttleRun_cons]
    have harith : i + 1 + rest.length = i + (rest.length + 1) := by omega
    rcases hstep : (throttleStep cps s e).2 with _ | args
    · rw [ih]
      rw [List.length_cons, harith]
    · dsimp only
      rw [ih]
      rw [List.length_cons, harith, List.cons_append]

/-- C4: over any chronological schedule made of a prefix, a final trigger
carrying args a, and a trailing tail of timeout firings, in which every
scheduled tick was eventually delivered (the final pending count is 0):
(1) executions of the wrapped call are spaced more than 1000/cps ms apart
(and the first comes more than an interval after creation);
(2) every execution at or after the final trigger carries that trigger's
args (rapid triggers coalesce into executions with the most recent args);
(3) at least one execution happens at or after the final trigger
(trailing-edge, never dropped). -/
theorem c4_throttle_rate_coalesce (cps t0 t : Nat) (a : List Nat)
    (pre post : List Sched)
    (hcps : 0 < cps)
    (hsort : List.Pairwise (fun x y => x.time ≤ y.time)
      (pre ++ ⟨t, .trigger a⟩ :: post))
    (ht0 : ∀ e ∈ pre ++ ⟨t, .trigger a⟩ :: post, t0 ≤ e.time)
    (hpost : ∀ e ∈ post, e.ev = .timeoutFire)
    (hq : (throttleRun cps (initThrState t0) 0
        (pre ++ ⟨t, .trigger a⟩ :: post)).1.pendingTicks = 0) :
    List.Chain (fun x y => x + interval cps < y) t0
      ((throttleRun cps (initThrState t0) 0
        (pre ++ ⟨t, .trigger a⟩ :: post)).2.map (·.time)) ∧
    (∀ x ∈ (throttleRun cps (initThrState t0) 0
        (pre ++ ⟨t, .trigger a⟩ :: post)).2,
      pre.length ≤ x.idx → x.args = a) ∧
    ∃ x ∈ (throttleRun cps (initThrState t0) 0
        (pre ++ ⟨t, .trigger a⟩ :: post)).2,
      pre.length ≤ x.idx := by
  have hsplit := throttleRun_append cps pre (⟨t, ThrEvent.trigger a⟩ :: post)
    (initThrState t0) 0
  rw [Nat.zero_add] at hsplit
  refine ⟨throttleRun_chain cps _ (initThrState t0) 0 hsort ht0, ?_, ?_⟩
  · intro x hx hxidx
    rw [hsplit] at hx
    dsimp only at hx
    rcases List.mem_append.mp hx with hx1 | hx2
    · have := throttleRun_idx_lt cps pre (initThrState t0) 0 x hx1
      omega
    · rw [throttleRun_cons] at hx2
      rcases hstep : (throttleStep cps (throttleRun cps (initThrState t0) 0 pre).1
          ⟨t, ThrEvent.trigger a⟩).2 with _ | args0
      · rw [hstep] at hx2
        dsimp only at hx2
        have hargs := throttleRun_timeouts_args cps post _ (pre.length + 1) hpost x hx2
        have hla := (throttleStep_none cps _ ⟨t, ThrEvent.trigger a⟩ hstep).2
        rw [hargs, hla]
        rfl
      · rw [hstep] at hx2
        dsimp only at hx2
        rcases List.mem_cons.mp hx2 with rfl | hmem
        · have := (throttleStep_some cps _ ⟨t, ThrEvent.trigger a⟩ args0 hstep).2.2.1
          exact this
        · have hargs := throttleRun_timeouts_args cps post _ (pre.length + 1) hpost x hmem
          have hla := (throttleStep_some cps _ ⟨t, ThrEvent.trigger a⟩ args0 hstep).2.2.2
          rw [hargs, hla]
          rfl
  · rw [hsplit] at hq ⊢
    dsimp only at hq ⊢
    rw [throttleRun_cons] at hq ⊢
    rcases hstep : (throttleStep cps (throttleRun cps (initThrState t0) 0 pre).1
        ⟨t, ThrEvent.trigger a⟩).2 with _ | args0
    · rw [hstep] at hq
      dsimp only at hq ⊢
      have hdp := throttleStep_trigger_none cps _ t a hstep
      have hne := throttleRun_timeouts_live cps post _ (pre.length + 1) hpost hdp.1 hdp.2 hq
      rcases hlog : (throttleRun cps (throttleStep cps
          (throttleRun cps (initThrState t0) 0 pre).1 ⟨t, ThrEvent.trigger a⟩).1
          (pre.length + 1) post).2 with _ | ⟨x, xs⟩
      · exact absurd hlog hne
      · refine ⟨x, List.mem_append_right _ ?_, ?_⟩
        · exact List.mem_cons_self x xs
        · have := throttleRun_idx_ge cps post _ (pre.length + 1) x
            (by rw [hlog]; exact List.mem_cons_self x xs)
          omega
    · refine ⟨⟨pre.length, t, args0⟩, List.mem_append_right _ ?_, le_refl _⟩
      dsimp only
      exact List.mem_cons_self _ _

def c4PreEx : List Sched := [⟨5, .trigger [1]⟩]

def c4PostEx : List Sched := [⟨20, .timeoutFire⟩, ⟨21, .timeoutFire⟩]

theorem c4_throttle_rate_coalesce_witness :
    0 < 100 ∧
    List.Pairwise (fun x y => x.time ≤ y.time)
      (c4PreEx ++ ⟨6, .trigger [2]⟩ :: c4PostEx) ∧
    (∀ e ∈ c4PreEx ++ ⟨6, .trigger [2]⟩ :: c4PostEx, 0 ≤ e.time) ∧
    (∀ e ∈ c4PostEx, e.ev = .timeoutFire) ∧
    (throttleRun 100 (initThrState 0) 0
        (c4PreEx ++ ⟨6, .trigger [2]⟩ :: c4PostEx)).1.pendingTicks = 0 ∧
    (List.Chain (fun x y => x + interval 100 < y) 0
      ((throttleRun 100 (initThrState 0) 0
        (c4PreEx ++ ⟨6, .trigger [2]⟩ :: c4PostEx)).2.map (·.time)) ∧
    (∀ x ∈ (throttleRun 100 (initThrState 0) 0
        (c4PreEx ++ ⟨6, .trigger [2]⟩ :: c4PostEx)).2,
      c4PreEx.length ≤ x.idx → x.args = [2]) ∧
    ∃ x ∈ (throttleRun 100 (initThrState 0) 0
        (c4PreEx ++ ⟨6, .trigger [2]⟩ :: c4PostEx)).2,
      c4PreEx.length ≤ x.idx) :=
  ⟨by decide, by decide, by decide, by decide, by decide,
    c4_throttle_rate_coalesce 100 0 6 [2] c4PreEx c4PostEx
      (by decide) (by decide) (by decide) (by decide) (by decide)⟩

end NpmLocalDev
